import Mathlib

/-
Verification development for the MyStockOverlay market-data synchronization
engine.  The TypeScript sources are shallowly embedded: pure functions become
Lean functions, the mutable module state (the token lock, the per-symbol chart
cache, the per-symbol fallback timer map, the websocket refs) becomes explicit
state passing, and JavaScript numbers are modelled as rationals where only
ordering and field access matter.  JavaScript string comparison operators
compare UTF-16 code units; all strings handled here are ASCII, so the
comparison is modelled by code-point lexicographic order on the character
list.  JavaScript Map insertion-order semantics are modelled by association
lists where setting an existing key replaces the value in place and setting a
fresh key appends.
-/

namespace MyStockOverlay

/-! ### String ordering and decimal conversion helpers

Models of the JavaScript primitives used by the source: relational operators
on strings, `Number(...)` on decimal strings, and `String(...)` on numbers. -/

/-- Lexicographic strict order on character lists by code point, as the
JavaScript `<` operator computes it on ASCII strings. -/
def charListLt : List Char → List Char → Bool
  | [], [] => false
  | [], _ :: _ => true
  | _ :: _, [] => false
  | a :: as, b :: bs =>
    if a.toNat < b.toNat then true
    else if b.toNat < a.toNat then false
    else charListLt as bs

/-- JavaScript string `<` (code-unit lexicographic; ASCII here). -/
def strLt (a b : String) : Bool := charListLt a.data b.data

/-- JavaScript string `<=`. -/
def strLe (a b : String) : Bool := !strLt b a

/-- Numeric value of a decimal digit character. -/
def digitVal (c : Char) : Nat := c.toNat - 48

/-- Value of a list of decimal digits, most significant first. -/
def digitsToNat (l : List Char) : Nat := l.foldl (fun n c => n * 10 + digitVal c) 0

/-- JavaScript `Number(s)` restricted to strings of decimal digits. -/
def strToNat (s : String) : Nat := digitsToNat s.data

/-- The decimal digit character for a value below ten. -/
def digitChar (n : Nat) : Char :=
  if n = 0 then '0' else if n = 1 then '1' else if n = 2 then '2' else if n = 3 then '3'
  else if n = 4 then '4' else if n = 5 then '5' else if n = 6 then '6'
  else if n = 7 then '7' else if n = 8 then '8' else '9'

/-- Decimal digits of `n`, most significant first, with explicit fuel.
Fuel 16 is enough for every number handled by the source (date keys have
eight digits). -/
def natToStringAux : Nat → Nat → List Char
  | 0, _ => []
  | f + 1, n => if n = 0 then [] else natToStringAux f (n / 10) ++ [digitChar (n % 10)]

/-- JavaScript `String(n)` for a natural number below 10^16. -/
def natToString (n : Nat) : String := if n = 0 then "0" else String.mk (natToStringAux 16 n)

/-- A character is a decimal digit. -/
def isDigitChar (c : Char) : Prop := 48 ≤ c.toNat ∧ c.toNat ≤ 57

instance (c : Char) : Decidable (isDigitChar c) := by
  unfold isDigitChar
  infer_instance

theorem char_eq_of_toNat_eq {a b : Char} (h : a.toNat = b.toNat) : a = b := by
  cases a; cases b
  simp only [Char.toNat] at h
  exact Char.ext (UInt32.ext (by simpa [UInt32.toNat] using h))

theorem charListLt_irrefl (l : List Char) : charListLt l l = false := by
  induction l with
  | nil => rfl
  | cons a as ih => simp [charListLt, ih]

theorem charListLt_asymm {a b : List Char} (h : charListLt a b = true) :
    charListLt b a = false := by
  induction a generalizing b with
  | nil =>
    cases b with
    | nil => simp [charListLt] at h
    | cons y ys => simp [charListLt]
  | cons x xs ih =>
    cases b with
    | nil => simp [charListLt] at h
    | cons y ys =>
      by_cases hxy : x.toNat < y.toNat
      · simp [charListLt, hxy, Nat.lt_asymm hxy]
      · by_cases hyx : y.toNat < x.toNat
        · simp [charListLt, hxy, hyx] at h
        · simp [charListLt, hxy, hyx] at h ⊢
          exact ih h

theorem charListLt_trans {a b c : List Char} (hab : charListLt a b = true)
    (hbc : charListLt b c = true) : charListLt a c = true := by
  induction a generalizing b c with
  | nil =>
    cases c with
    | nil =>
      cases b with
      | nil => simpa using hab
      | cons y ys => simp [charListLt] at hbc
    | cons z zs => simp [charListLt]
  | cons x xs ih =>
    cases b with
    | nil => simp [charListLt] at hab
    | cons y ys =>
      cases c with
      | nil => simp [charListLt] at hbc
      | cons z zs =>
        by_cases hxy : x.toNat < y.toNat
        · by_cases hyz : y.toNat < z.toNat
          · simp [charListLt, Nat.lt_trans hxy hyz]
          · by_cases hzy : z.toNat < y.toNat
            · simp [charListLt, hyz, hzy] at hbc
            · have hyz' : y.toNat = z.toNat := Nat.le_antisymm (Nat.le_of_not_lt hzy) (Nat.le_of_not_lt hyz)
              simp [charListLt, hyz' ▸ hxy]
        · by_cases hyx : y.toNat < x.toNat
          · simp [charListLt, hxy, hyx] at hab
          · have hxy' : x.toNat = y.toNat := Nat.le_antisymm (Nat.le_of_not_lt hyx) (Nat.le_of_not_lt hxy)
            simp [charListLt, hxy, hyx] at hab
            by_cases hyz : y.toNat < z.toNat
            · simp [charListLt, hxy' ▸ hyz]
            · by_cases hzy : z.toNat < y.toNat
              · simp [charListLt, hyz, hzy] at hbc
              · simp [charListLt, hyz, hzy] at hbc
                simp [charListLt, hxy' ▸ hyz, hxy' ▸ hzy]
                exact ih hab hbc

theorem charListLt_connex {a b : List Char} (hab : charListLt a b = false)
    (hba : charListLt b a = false) : a = b := by
  induction a generalizing b with
  | nil =>
    cases b with
    | nil => rfl
    | cons y ys => simp [charListLt] at hab
  | cons x xs ih =>
    cases b with
    | nil => simp [charListLt] at hba
    | cons y ys =>
      by_cases hxy : x.toNat < y.toNat
      · simp [charListLt, hxy] at hab
      · by_cases hyx : y.toNat < x.toNat
        · simp [charListLt, hyx, Nat.lt_asymm hyx] at hba
        · have hx : x = y :=
            char_eq_of_toNat_eq (Nat.le_antisymm (Nat.le_of_not_lt hyx) (Nat.le_of_not_lt hxy))
          simp [charListLt, hxy, hyx] at hab hba
          exact hx ▸ congrArg (x :: ·) (ih hab hba)

theorem strLe_total (a b : String) : strLe a b = true ∨ strLe b a = true := by
  by_cases h : charListLt b.data a.data = true
  · exact Or.inr (by simp [strLe, strLt, charListLt_asymm h])
  · exact Or.inl (by simp [strLe, strLt, Bool.eq_false_iff.mpr h])

theorem strLe_trans {a b c : String} (hab : strLe a b = true) (hbc : strLe b c = true) :
    strLe a c = true := by
  simp only [strLe, strLt, Bool.not_eq_true', Bool.not_eq_true] at hab hbc ⊢
  by_cases hca : charListLt c.data a.data = true
  · by_cases hbc2 : charListLt b.data c.data = true
    · rw [charListLt_trans hbc2 hca] at hab; cases hab
    · have hcb : b.data = c.data := charListLt_connex (Bool.eq_false_iff.mpr hbc2) hbc
      rw [← hcb] at hca; rw [hca] at hab; cases hab
  · exact Bool.eq_false_iff.mpr hca

theorem strLe_antisymm {a b : String} (hab : strLe a b = true) (hba : strLe b a = true) :
    a = b := by
  simp only [strLe, strLt, Bool.not_eq_true', Bool.not_eq_true] at hab hba
  cases a; cases b
  exact congrArg String.mk (charListLt_connex hba hab)

/-! ### Chart data model (src/lib/chartCache.ts, src/lib/chartUtils.ts)

The interfaces `ChartCacheItem` (chartCache.ts) and `ChartPoint` (chartUtils.ts)
have the same three fields; they are identified here.  Prices are JavaScript
numbers used only through ordering comparisons and copying, modelled as
rationals. -/

/-- One intraday point: price, calendar date "YYYYMMDD", time "HHMMSS". -/
structure ChartPoint where
  price : Rat
  date : String
  hour : String
deriving DecidableEq, Repr

/-- The chartCache.ts interface of the same shape. -/
abbrev ChartCacheItem := ChartPoint

/-- The (date, timeOfDay) key of an item: the source concatenates
`item.date + item.hour`. -/
def ChartPoint.key (i : ChartPoint) : String := i.date ++ i.hour

/-- The sort comparator of `saveMergedItems`:
`(a.date + a.hour).localeCompare(b.date + b.hour)` ascending, as a
total preorder on items. -/
def keyLe (a b : ChartPoint) : Prop := strLe a.key b.key = true

instance : DecidableRel keyLe := fun a b => by unfold keyLe; infer_instance

instance : IsTotal ChartPoint keyLe := ⟨fun a b => strLe_total a.key b.key⟩

instance : IsTrans ChartPoint keyLe := ⟨fun _ _ _ => strLe_trans⟩

/-- Per-symbol cache record (`ChartCacheData` in chartCache.ts), including the
untyped `lastGapCleared` field that `getLastCachedDateHour` writes. -/
structure ChartCacheData where
  lastUpdated : String
  items : List ChartCacheItem
  basePrice : Option Rat
  lastGapCleared : Option String
deriving DecidableEq, Repr

/-! ### JavaScript Map model

`saveMergedItems` builds a `Map<string, ChartCacheItem>`.  A JavaScript map
preserves insertion order: setting an existing key replaces its value in
place, setting a fresh key appends.  Association lists with exactly that
update rule model it. -/

/-- Association list backing a JavaScript Map from strings to items. -/
abbrev ItemMap := List (String × ChartCacheItem)

/-- JavaScript `map.set(k, v)`: replace in place or append. -/
def mapSet (m : ItemMap) (k : String) (v : ChartCacheItem) : ItemMap :=
  match m with
  | [] => [(k, v)]
  | (k', v') :: rest => if k' = k then (k, v) :: rest else (k', v') :: mapSet rest k v

/-- JavaScript `map.get(k)` (first, hence unique, binding). -/
def lookupKey (m : ItemMap) (k : String) : Option ChartCacheItem :=
  match m with
  | [] => none
  | (k', v) :: rest => if k' = k then some v else lookupKey rest k

/-- The key sequence of the map, in insertion order. -/
def keysOf (m : ItemMap) : List String := m.map Prod.fst

/-- One loop body of `saveMergedItems`:
`if (item.price > 0) itemMap.set(item.date + item.hour, item)`. -/
def insertStep (m : ItemMap) (item : ChartCacheItem) : ItemMap :=
  if 0 < item.price then mapSet m item.key item else m

/-- Folding one of the two `for` loops of `saveMergedItems` over the map. -/
def insertItems (m : ItemMap) (items : List ChartCacheItem) : ItemMap :=
  items.foldl insertStep m

/-- Core of `ChartCacheManager.saveMergedItems`: insert the existing items,
then the new items, into an empty map, take the values and sort them by the
(date + hour) key.  `Array.prototype.sort` is a stable sort by the comparator;
the map values have pairwise distinct keys, so every sort by this total
preorder produces the same list and `List.insertionSort` models it exactly. -/
def mergeItems (existingItems newItems : List ChartCacheItem) : List ChartCacheItem :=
  List.insertionSort keyLe ((insertItems (insertItems [] existingItems) newItems).map Prod.snd)

/-- State-level `ChartCacheManager.saveMergedItems` for one symbol: merge the
new items with the stored ones and write back the merged list, stamping
`lastUpdated` with today; `...data` spreading preserves `basePrice` and
`lastGapCleared`.  Returns the merged list and the new stored record. -/
def saveMergedItems (store : Option ChartCacheData) (today : String)
    (newItems : List ChartCacheItem) : List ChartCacheItem × ChartCacheData :=
  let existingItems := match store with
    | some data => data.items
    | none => []
  let mergedItems := mergeItems existingItems newItems
  (mergedItems,
   { lastUpdated := today
     items := mergedItems
     basePrice := match store with
       | some data => data.basePrice
       | none => none
     lastGapCleared := match store with
       | some data => data.lastGapCleared
       | none => none })

/-! ### Map lemmas -/

theorem mem_keysOf_cons {k k' : String} {v' : ChartCacheItem} {rest : ItemMap} :
    k ∈ keysOf ((k', v') :: rest) ↔ k = k' ∨ k ∈ keysOf rest := by
  simp [keysOf]

theorem keysOf_mapSet_of_mem {k : String} (v : ChartCacheItem) :
    ∀ m : ItemMap, k ∈ keysOf m → keysOf (mapSet m k v) = keysOf m
  | [], h => absurd h (by simp [keysOf])
  | (k', v') :: rest, h => by
    by_cases hk : k' = k
    · simp [mapSet, hk, keysOf]
    · have hmem : k ∈ keysOf rest := by
        rcases mem_keysOf_cons.mp h with h | h
        · exact absurd h.symm hk
        · exact h
      simp only [mapSet, hk, if_false, keysOf, List.map_cons]
      exact congrArg (k' :: ·) (keysOf_mapSet_of_mem v rest hmem)

theorem keysOf_mapSet_of_not_mem {k : String} (v : ChartCacheItem) :
    ∀ m : ItemMap, k ∉ keysOf m → keysOf (mapSet m k v) = keysOf m ++ [k]
  | [], _ => rfl
  | (k', v') :: rest, h => by
    have hk : k' ≠ k := fun e => h (mem_keysOf_cons.mpr (Or.inl e.symm))
    have hrest : k ∉ keysOf rest := fun e => h (mem_keysOf_cons.mpr (Or.inr e))
    simp only [mapSet, hk, if_false, keysOf, List.map_cons, List.cons_append]
    exact congrArg (k' :: ·) (keysOf_mapSet_of_not_mem v rest hrest)

theorem mapSet_eq_append_of_not_mem {k : String} (v : ChartCacheItem) :
    ∀ m : ItemMap, k ∉ keysOf m → mapSet m k v = m ++ [(k, v)]
  | [], _ => rfl
  | (k', v') :: rest, h => by
    have hk : k' ≠ k := fun e => h (mem_keysOf_cons.mpr (Or.inl e.symm))
    have hrest : k ∉ keysOf rest := fun e => h (mem_keysOf_cons.mpr (Or.inr e))
    simp only [mapSet, hk, if_false, List.cons_append]
    exact congrArg ((k', v') :: ·) (mapSet_eq_append_of_not_mem v rest hrest)

theorem lookupKey_mapSet_self (m : ItemMap) (k : String) (v : ChartCacheItem) :
    lookupKey (mapSet m k v) k = some v := by
  induction m with
  | nil => simp [mapSet, lookupKey]
  | cons p rest ih =>
    obtain ⟨k', v'⟩ := p
    by_cases hk : k' = k
    · simp [mapSet, hk, lookupKey]
    · simp [mapSet, hk, lookupKey, ih]

theorem lookupKey_mapSet_ne {k k' : String} (v : ChartCacheItem) (h : ¬ k = k') :
    ∀ m : ItemMap, lookupKey (mapSet m k v) k' = lookupKey m k'
  | [] => by simp [mapSet, lookupKey, h]
  | (k₀, v₀) :: rest => by
    by_cases hk : k₀ = k
    · subst hk
      simp only [mapSet, if_pos rfl, lookupKey, if_neg h]
    · simp only [mapSet, if_neg hk, lookupKey]
      by_cases hk' : k₀ = k'
      · simp [hk']
      · simp only [if_neg hk']
        exact lookupKey_mapSet_ne v h rest

theorem lookupKey_eq_none_of_not_mem {k : String} :
    ∀ m : ItemMap, k ∉ keysOf m → lookupKey m k = none
  | [], _ => rfl
  | (k', v') :: rest, h => by
    have hk : ¬ k' = k := fun e => h (mem_keysOf_cons.mpr (Or.inl e.symm))
    have hrest : k ∉ keysOf rest := fun e => h (mem_keysOf_cons.mpr (Or.inr e))
    simp only [lookupKey, if_neg hk]
    exact lookupKey_eq_none_of_not_mem rest hrest

theorem mem_keysOf_of_mem {m : ItemMap} {k : String} {v : ChartCacheItem}
    (h : (k, v) ∈ m) : k ∈ keysOf m :=
  List.mem_map.mpr ⟨(k, v), h, rfl⟩

theorem mem_of_lookupKey {k : String} {v : ChartCacheItem} :
    ∀ {m : ItemMap}, lookupKey m k = some v → (k, v) ∈ m
  | [], h => by cases h
  | (k', v') :: rest, h => by
    by_cases hk : k' = k
    · subst hk
      have hv : v' = v := by simpa [lookupKey] using h
      exact hv ▸ List.mem_cons_self _ _
    · simp only [lookupKey, if_neg hk] at h
      exact List.mem_cons_of_mem _ (mem_of_lookupKey h)

theorem lookupKey_of_mem {k : String} {v : ChartCacheItem} :
    ∀ {m : ItemMap}, (keysOf m).Nodup → (k, v) ∈ m → lookupKey m k = some v
  | [], _, h => by cases h
  | (k', v') :: rest, hnd, h => by
    rcases List.mem_cons.mp h with h | h
    · obtain ⟨rfl, rfl⟩ := Prod.mk.injEq .. ▸ h
      simp [lookupKey]
    · have hk : ¬ k' = k := by
        intro e
        subst e
        exact (List.nodup_cons.mp hnd).1 (mem_keysOf_of_mem h)
      simp only [lookupKey, if_neg hk]
      exact lookupKey_of_mem (List.nodup_cons.mp hnd).2 h

theorem nodup_keysOf_mapSet {m : ItemMap} {k : String} (v : ChartCacheItem)
    (hnd : (keysOf m).Nodup) : (keysOf (mapSet m k v)).Nodup := by
  by_cases h : k ∈ keysOf m
  · rw [keysOf_mapSet_of_mem v m h]; exact hnd
  · rw [keysOf_mapSet_of_not_mem v m h]
    simpa [List.nodup_append] using ⟨hnd, h⟩

theorem mapSet_preserves {P : String × ChartCacheItem → Prop} {m : ItemMap}
    {k : String} {v : ChartCacheItem} (hm : ∀ p ∈ m, P p) (hv : P (k, v)) :
    ∀ p ∈ mapSet m k v, P p := by
  induction m with
  | nil => simpa [mapSet] using hv
  | cons q rest ih =>
    obtain ⟨k', v'⟩ := q
    by_cases hk : k' = k
    · simp only [mapSet, hk, if_true]
      intro p hp
      rcases List.mem_cons.mp hp with h | h
      · exact h ▸ hv
      · exact hm p (List.mem_cons_of_mem _ h)
    · simp only [mapSet, hk, if_false]
      intro p hp
      rcases List.mem_cons.mp hp with h | h
      · exact hm p (h ▸ List.mem_cons_self _ _)
      · exact ih (fun q hq => hm q (List.mem_cons_of_mem _ hq)) p h

/-! ### Characterization of the insertion loops -/

/-- The value stored for key `k` after a loop over `l`: the last element of
`l` with positive price and key `k`, if any. -/
def lastWithKey (l : List ChartCacheItem) (k : String) : Option ChartCacheItem :=
  match l with
  | [] => none
  | i :: rest => (lastWithKey rest k).or (if 0 < i.price ∧ i.key = k then some i else none)

theorem insertItems_append (m : ItemMap) (l₁ l₂ : List ChartCacheItem) :
    insertItems m (l₁ ++ l₂) = insertItems (insertItems m l₁) l₂ :=
  List.foldl_append _ _ _ _

theorem lookupKey_insertStep (m : ItemMap) (i : ChartCacheItem) (k : String) :
    lookupKey (insertStep m i) k =
      if 0 < i.price ∧ i.key = k then some i else lookupKey m k := by
  by_cases hp : 0 < i.price
  · by_cases hk : i.key = k
    · simp only [insertStep, if_pos hp, if_pos (And.intro hp hk)]
      exact hk ▸ lookupKey_mapSet_self m i.key i
    · simp only [insertStep, if_pos hp, if_neg (fun h : _ ∧ _ => hk h.2)]
      exact lookupKey_mapSet_ne i hk m
  · simp [insertStep, hp]

theorem lookupKey_insertItems (k : String) :
    ∀ (l : List ChartCacheItem) (m : ItemMap),
      lookupKey (insertItems m l) k = (lastWithKey l k).or (lookupKey m k)
  | [], m => rfl
  | i :: rest, m => by
    have step : insertItems m (i :: rest) = insertItems (insertStep m i) rest := rfl
    rw [step, lookupKey_insertItems k rest (insertStep m i), lookupKey_insertStep,
      lastWithKey, Option.or_assoc]
    congr 1
    by_cases h : 0 < i.price ∧ i.key = k
    · simp [h]
    · simp [h]

theorem insertItems_preserves {P : String × ChartCacheItem → Prop}
    (hP : ∀ i : ChartCacheItem, 0 < i.price → P (i.key, i)) :
    ∀ (l : List ChartCacheItem) (m : ItemMap), (∀ p ∈ m, P p) →
      ∀ p ∈ insertItems m l, P p
  | [], _, hm => hm
  | i :: rest, m, hm => by
    have step : insertItems m (i :: rest) = insertItems (insertStep m i) rest := rfl
    rw [step]
    refine insertItems_preserves hP rest _ ?_
    by_cases hp : 0 < i.price
    · simp only [insertStep, if_pos hp]
      exact mapSet_preserves hm (hP i hp)
    · simpa [insertStep, hp] using hm

theorem nodup_keysOf_insertItems :
    ∀ (l : List ChartCacheItem) (m : ItemMap), (keysOf m).Nodup →
      (keysOf (insertItems m l)).Nodup
  | [], _, hm => hm
  | i :: rest, m, hm => by
    have step : insertItems m (i :: rest) = insertItems (insertStep m i) rest := rfl
    rw [step]
    refine nodup_keysOf_insertItems rest _ ?_
    by_cases hp : 0 < i.price
    · simp only [insertStep, if_pos hp]
      exact nodup_keysOf_mapSet i hm
    · simpa [insertStep, hp] using hm

theorem mem_keysOf_mapSet {m : ItemMap} {k k' : String} (v : ChartCacheItem) :
    k' ∈ keysOf (mapSet m k v) ↔ k' ∈ keysOf m ∨ k' = k := by
  by_cases h : k ∈ keysOf m
  · rw [keysOf_mapSet_of_mem v m h]
    exact ⟨Or.inl, fun e => e.elim id (fun e => e ▸ h)⟩
  · rw [keysOf_mapSet_of_not_mem v m h]
    simp

theorem mem_keysOf_insertItems (k : String) :
    ∀ (l : List ChartCacheItem) (m : ItemMap),
      k ∈ keysOf (insertItems m l) ↔
        k ∈ keysOf m ∨ ∃ i ∈ l, 0 < i.price ∧ i.key = k
  | [], m => by simp [insertItems]
  | i :: rest, m => by
    have step : insertItems m (i :: rest) = insertItems (insertStep m i) rest := rfl
    rw [step, mem_keysOf_insertItems k rest (insertStep m i)]
    constructor
    · rintro (h | h)
      · by_cases hp : 0 < i.price
        · rcases (mem_keysOf_mapSet i).mp (by simpa [insertStep, hp] using h) with h | h
          · exact Or.inl h
          · exact Or.inr ⟨i, List.mem_cons_self _ _, hp, h.symm⟩
        · exact Or.inl (by simpa [insertStep, hp] using h)
      · obtain ⟨j, hj, hjp⟩ := h
        exact Or.inr ⟨j, List.mem_cons_of_mem _ hj, hjp⟩
    · rintro (h | ⟨j, hj, hjp, hjk⟩)
      · left
        by_cases hp : 0 < i.price
        · simpa [insertStep, hp] using (mem_keysOf_mapSet i).mpr (Or.inl h)
        · simpa [insertStep, hp] using h
      · rcases List.mem_cons.mp hj with rfl | hj
        · left
          simpa [insertStep, hjp] using
            (@mem_keysOf_mapSet m j.key k j).mpr (Or.inr hjk.symm)
        · exact Or.inr ⟨j, hj, hjp, hjk⟩

theorem keysOf_insertItems_of_sub :
    ∀ (l : List ChartCacheItem) (m : ItemMap),
      (∀ i ∈ l, 0 < i.price → i.key ∈ keysOf m) →
      keysOf (insertItems m l) = keysOf m
  | [], _, _ => rfl
  | i :: rest, m, h => by
    have step : insertItems m (i :: rest) = insertItems (insertStep m i) rest := rfl
    have hkeys : keysOf (insertStep m i) = keysOf m := by
      by_cases hp : 0 < i.price
      · simp only [insertStep, if_pos hp]
        exact keysOf_mapSet_of_mem i m (h i (List.mem_cons_self _ _) hp)
      · simp [insertStep, hp]
    rw [step, keysOf_insertItems_of_sub rest _ (fun j hj hjp => by
      rw [hkeys]; exact h j (List.mem_cons_of_mem _ hj) hjp), hkeys]

theorem insertItems_fresh :
    ∀ (l : List ChartCacheItem) (m : ItemMap),
      (l.map ChartPoint.key).Nodup → (∀ i ∈ l, 0 < i.price) →
      (∀ i ∈ l, i.key ∉ keysOf m) →
      insertItems m l = m ++ l.map (fun i => (i.key, i))
  | [], m, _, _, _ => by simp [insertItems]
  | i :: rest, m, hnd, hpos, hfresh => by
    have step : insertItems m (i :: rest) = insertItems (insertStep m i) rest := rfl
    have hp : 0 < i.price := hpos i (List.mem_cons_self _ _)
    have hstep : insertStep m i = m ++ [(i.key, i)] := by
      simp only [insertStep, if_pos hp]
      exact mapSet_eq_append_of_not_mem i m (hfresh i (List.mem_cons_self _ _))
    have hnd' : (rest.map ChartPoint.key).Nodup := (List.nodup_cons.mp hnd).2
    have hfresh' : ∀ j ∈ rest, j.key ∉ keysOf (m ++ [(i.key, i)]) := by
      intro j hj hmem
      have hmem' : j.key ∈ keysOf m ++ [i.key] := by
        simpa [keysOf] using hmem
      rcases List.mem_append.mp hmem' with h | h
      · exact hfresh j (List.mem_cons_of_mem _ hj) h
      · have : j.key = i.key := by simpa using h
        exact (List.nodup_cons.mp hnd).1 (this ▸ List.mem_map.mpr ⟨j, hj, rfl⟩)
    rw [step, hstep,
      insertItems_fresh rest _ hnd' (fun j hj => hpos j (List.mem_cons_of_mem _ hj)) hfresh']
    simp

/-! ### Merge correctness -/

theorem itemMap_ext : ∀ (m m' : ItemMap), keysOf m = keysOf m' → (keysOf m).Nodup →
    (∀ k, lookupKey m k = lookupKey m' k) → m = m'
  | [], [], _, _, _ => rfl
  | [], (_, _) :: _, hk, _, _ => by simp [keysOf] at hk
  | (_, _) :: _, [], hk, _, _ => by simp [keysOf] at hk
  | (k, v) :: t, (k', v') :: t', hk, hnd, hl => by
    have hk' : k = k' ∧ keysOf t = keysOf t' := by
      simpa [keysOf] using hk
    obtain ⟨rfl, htk⟩ := hk'
    have hv : v = v' := by simpa [lookupKey] using hl k
    subst hv
    have hknot : k ∉ keysOf t := (List.nodup_cons.mp (by simpa [keysOf] using hnd)).1
    have hknot' : k ∉ keysOf t' := htk ▸ hknot
    have htl : ∀ k0, lookupKey t k0 = lookupKey t' k0 := by
      intro k0
      by_cases h0 : k0 = k
      · subst h0
        rw [lookupKey_eq_none_of_not_mem t hknot, lookupKey_eq_none_of_not_mem t' hknot']
      · have hne : ¬ k = k0 := fun e => h0 e.symm
        have := hl k0
        simp only [lookupKey, if_neg hne] at this
        exact this
    exact congrArg _ (itemMap_ext t t' htk (List.nodup_cons.mp (by simpa [keysOf] using hnd)).2 htl)

/-- The map built by the two loops of `saveMergedItems`. -/
def mergedMap (existingItems newItems : List ChartCacheItem) : ItemMap :=
  insertItems (insertItems [] existingItems) newItems

theorem mergedMap_wf (E X : List ChartCacheItem) :
    ∀ p ∈ mergedMap E X, (p.2).key = p.1 ∧ 0 < (p.2).price := by
  refine insertItems_preserves (fun i hp => ⟨rfl, hp⟩) X _ ?_
  refine insertItems_preserves (fun i hp => ⟨rfl, hp⟩) E _ ?_
  intro p hp
  cases hp

theorem mergedMap_nodup (E X : List ChartCacheItem) : (keysOf (mergedMap E X)).Nodup := by
  refine nodup_keysOf_insertItems X _ (nodup_keysOf_insertItems E _ ?_)
  simp [keysOf]

theorem lookupKey_mergedMap (E X : List ChartCacheItem) (k : String) :
    lookupKey (mergedMap E X) k = (lastWithKey X k).or (lastWithKey E k) := by
  rw [mergedMap, lookupKey_insertItems, lookupKey_insertItems]
  have : lookupKey ([] : ItemMap) k = none := rfl
  rw [this]
  cases lastWithKey E k <;> cases lastWithKey X k <;> rfl

theorem mergeItems_eq_sort_values (E X : List ChartCacheItem) :
    mergeItems E X = List.insertionSort keyLe ((mergedMap E X).map Prod.snd) := rfl

theorem mergeItems_perm (E X : List ChartCacheItem) :
    (mergeItems E X).Perm ((mergedMap E X).map Prod.snd) :=
  List.perm_insertionSort keyLe _

theorem mergeItems_sorted (E X : List ChartCacheItem) :
    List.Sorted keyLe (mergeItems E X) :=
  List.sorted_insertionSort keyLe _

theorem map_key_mergedMap (E X : List ChartCacheItem) :
    ((mergedMap E X).map Prod.snd).map ChartPoint.key = keysOf (mergedMap E X) := by
  rw [List.map_map, keysOf]
  exact List.map_congr_left (fun p hp => (mergedMap_wf E X p hp).1)

theorem mergeItems_map_key_perm (E X : List ChartCacheItem) :
    ((mergeItems E X).map ChartPoint.key).Perm (keysOf (mergedMap E X)) :=
  map_key_mergedMap E X ▸ (mergeItems_perm E X).map ChartPoint.key

theorem mergeItems_nodup_keys (E X : List ChartCacheItem) :
    ((mergeItems E X).map ChartPoint.key).Nodup :=
  ((mergeItems_map_key_perm E X).symm.nodup (mergedMap_nodup E X))

theorem mergeItems_pos (E X : List ChartCacheItem) :
    ∀ i ∈ mergeItems E X, 0 < i.price := by
  intro i hi
  have : i ∈ (mergedMap E X).map Prod.snd := (mergeItems_perm E X).mem_iff.mp hi
  obtain ⟨p, hp, rfl⟩ := List.mem_map.mp this
  exact (mergedMap_wf E X p hp).2

theorem lookup_map_pair_eq {M : ItemMap} {l : List ChartCacheItem}
    (hwf : ∀ p ∈ M, (p.2).key = p.1 ∧ 0 < (p.2).price)
    (hnd : (keysOf M).Nodup) (hperm : l.Perm (M.map Prod.snd)) (k : String) :
    lookupKey (l.map fun i => (i.key, i)) k = lookupKey M k := by
  have hndl : (keysOf (l.map fun i => (i.key, i))).Nodup := by
    have hkeys : keysOf (l.map fun i => (i.key, i)) = l.map ChartPoint.key := by
      simp [keysOf, List.map_map]
    rw [hkeys]
    have hmkeys : (l.map ChartPoint.key).Perm (keysOf M) := by
      have h1 : ((M.map Prod.snd).map ChartPoint.key) = keysOf M := by
        rw [List.map_map, keysOf]
        exact List.map_congr_left (fun p hp => (hwf p hp).1)
      exact h1 ▸ hperm.map ChartPoint.key
    exact hmkeys.symm.nodup hnd
  cases h1 : lookupKey (l.map fun i => (i.key, i)) k with
  | some w =>
    have hmem := mem_of_lookupKey h1
    obtain ⟨i, hi, hpair⟩ := List.mem_map.mp hmem
    have hik : i.key = k := congrArg Prod.fst hpair
    have hiw : i = w := congrArg Prod.snd hpair
    subst hiw
    have hwmem : i ∈ M.map Prod.snd := hperm.mem_iff.mp hi
    obtain ⟨p, hp, hps⟩ := List.mem_map.mp hwmem
    have hp1 : p.1 = k := by rw [← (hwf p hp).1, hps, hik]
    have hkw : (k, i) ∈ M := by
      have hpkw : p = (k, i) := by
        obtain ⟨a, b⟩ := p
        simp only [Prod.mk.injEq]
        exact ⟨hp1, hps⟩
      exact hpkw ▸ hp
    exact (lookupKey_of_mem hnd hkw).symm
  | none =>
    cases h2 : lookupKey M k with
    | none => rfl
    | some w =>
      exfalso
      have hmem := mem_of_lookupKey h2
      have hwk : w.key = k := (hwf (k, w) hmem).1
      have hwl : w ∈ l := hperm.symm.mem_iff.mp (List.mem_map.mpr ⟨(k, w), hmem, rfl⟩)
      have : (k, w) ∈ l.map fun i => (i.key, i) :=
        List.mem_map.mpr ⟨w, hwl, by rw [hwk]⟩
      rw [lookupKey_of_mem hndl this] at h1
      cases h1

/-- Absorption: merging `X` into an already-merged store `O` that contains the
final value for every key of `X` returns `O` unchanged. -/
theorem mergeItems_absorb {O X : List ChartCacheItem}
    (hsorted : List.Sorted keyLe O)
    (hnd : (O.map ChartPoint.key).Nodup)
    (hpos : ∀ i ∈ O, 0 < i.price)
    (hlast : ∀ k v, lastWithKey X k = some v →
      lookupKey (O.map fun i => (i.key, i)) k = some v)
    (hkeys : ∀ i ∈ X, 0 < i.price → i.key ∈ O.map ChartPoint.key) :
    mergeItems O X = O := by
  have hfresh : insertItems [] O = O.map fun i => (i.key, i) := by
    have := insertItems_fresh O [] hnd hpos (fun i _ h => by cases h)
    simpa using this
  have hkeysO : keysOf (O.map fun i => (i.key, i)) = O.map ChartPoint.key := by
    simp [keysOf, List.map_map]
  have hM2 : insertItems (O.map fun i => (i.key, i)) X = O.map fun i => (i.key, i) := by
    refine itemMap_ext _ _ ?_ ?_ ?_
    · refine keysOf_insertItems_of_sub X _ ?_
      intro i hi hip
      rw [hkeysO]
      exact hkeys i hi hip
    · refine nodup_keysOf_insertItems X _ ?_
      rw [hkeysO]
      exact hnd
    · intro k
      rw [lookupKey_insertItems]
      cases h : lastWithKey X k with
      | none => rfl
      | some v => exact (hlast k v h).symm
  rw [mergeItems, hfresh, hM2, List.map_map]
  have : (Prod.snd ∘ fun i : ChartCacheItem => (i.key, i)) = id := rfl
  rw [this, List.map_id]
  exact List.Sorted.insertionSort_eq hsorted

theorem lastWithKey_eq_none_of_no_key {k : String} :
    ∀ {l : List ChartCacheItem}, (∀ j ∈ l, j.key ≠ k) → lastWithKey l k = none
  | [], _ => rfl
  | i :: rest, h => by
    have hik : ¬ (0 < i.price ∧ i.key = k) := fun hc => h i (List.mem_cons_self _ _) hc.2
    rw [lastWithKey, lastWithKey_eq_none_of_no_key (fun j hj => h j (List.mem_cons_of_mem _ hj)),
      if_neg hik]
    rfl

theorem lastWithKey_map_pair {k : String} :
    ∀ {l : List ChartCacheItem}, (l.map ChartPoint.key).Nodup → (∀ i ∈ l, 0 < i.price) →
      lastWithKey l k = lookupKey (l.map fun i => (i.key, i)) k
  | [], _, _ => rfl
  | i :: rest, hnd, hpos => by
    by_cases hik : i.key = k
    · have hrest : lastWithKey rest k = none := by
        refine lastWithKey_eq_none_of_no_key ?_
        intro j hj e
        exact (List.nodup_cons.mp hnd).1 (hik ▸ e ▸ List.mem_map.mpr ⟨j, hj, rfl⟩)
      have hip : 0 < i.price := hpos i (List.mem_cons_self _ _)
      simp only [lastWithKey, hrest, List.map_cons, lookupKey, if_pos hik,
        if_pos (And.intro hip hik)]
      rfl
    · simp only [lastWithKey, List.map_cons, lookupKey, if_neg hik,
        if_neg (fun hc : _ ∧ _ => hik hc.2)]
      rw [lastWithKey_map_pair (List.nodup_cons.mp hnd).2
        (fun j hj => hpos j (List.mem_cons_of_mem _ hj))]
      cases lookupKey (rest.map fun i => (i.key, i)) k <;> rfl

/-- Merging the same new items a second time leaves the merged series
unchanged. -/
theorem mergeItems_idem (E X : List ChartCacheItem) :
    mergeItems (mergeItems E X) X = mergeItems E X := by
  refine mergeItems_absorb (mergeItems_sorted E X) (mergeItems_nodup_keys E X)
    (mergeItems_pos E X) ?_ ?_
  · intro k v hv
    rw [lookup_map_pair_eq (mergedMap_wf E X) (mergedMap_nodup E X) (mergeItems_perm E X) k,
      lookupKey_mergedMap, hv]
    rfl
  · intro i hi hip
    have hmem : i.key ∈ keysOf (mergedMap E X) :=
      (mem_keysOf_insertItems i.key X _).mpr (Or.inr ⟨i, hi, hip, rfl⟩)
    exact (mergeItems_map_key_perm E X).mem_iff.mpr hmem

/-- Merging an already-merged series into itself is the identity. -/
theorem mergeItems_merge_self (E X : List ChartCacheItem) :
    mergeItems (mergeItems E X) (mergeItems E X) = mergeItems E X := by
  refine mergeItems_absorb (mergeItems_sorted E X) (mergeItems_nodup_keys E X)
    (mergeItems_pos E X) ?_ ?_
  · intro k v hv
    rw [← lastWithKey_map_pair (mergeItems_nodup_keys E X) (mergeItems_pos E X)]
    exact hv
  · intro i hi _
    exact List.mem_map.mpr ⟨i, hi, rfl⟩

theorem strLt_of_strLe_ne {a b : String} (hle : strLe a b = true) (hne : a ≠ b) :
    strLt a b = true := by
  by_cases h : charListLt a.data b.data = true
  · exact h
  · exfalso
    simp only [strLe, strLt, Bool.not_eq_true', Bool.not_eq_true] at hle
    have : a.data = b.data := charListLt_connex (Bool.eq_false_iff.mpr h) hle
    apply hne
    cases a; cases b
    exact congrArg String.mk this

/-- Claim C5: the chart-merge operation is idempotent.  Merging the same new
items a second time, or merging the returned merged series back in, yields
exactly the same stored record and the same returned series as the single
merge. -/
theorem claim_C5 (store : Option ChartCacheData) (today : String) (X : List ChartCacheItem) :
    saveMergedItems (some (saveMergedItems store today X).2) today X
      = saveMergedItems store today X
    ∧ saveMergedItems (some (saveMergedItems store today X).2) today
        (saveMergedItems store today X).1
      = saveMergedItems store today X := by
  cases store with
  | none => simp [saveMergedItems, mergeItems_idem, mergeItems_merge_self]
  | some data => simp [saveMergedItems, mergeItems_idem, mergeItems_merge_self]

/-- Claim C6: after every merge the cached series has strictly increasing
(date + timeOfDay) keys (hence non-decreasing with each key at most once),
every retained point has a strictly positive price, and whenever an existing
item and a new item share a key the retained value is the newest positive new
item for that key. -/
theorem claim_C6 (E X : List ChartCacheItem) :
    List.Pairwise (fun a b => strLt a.key b.key = true) (mergeItems E X)
    ∧ (∀ i ∈ mergeItems E X, 0 < i.price)
    ∧ (∀ k v, (∃ e ∈ E, 0 < e.price ∧ e.key = k) → lastWithKey X k = some v →
        v ∈ mergeItems E X ∧ ∀ i ∈ mergeItems E X, i.key = k → i = v) := by
  refine ⟨?_, mergeItems_pos E X, ?_⟩
  · have hle : List.Pairwise keyLe (mergeItems E X) := mergeItems_sorted E X
    have hne : List.Pairwise (fun a b : ChartCacheItem => a.key ≠ b.key) (mergeItems E X) :=
      List.pairwise_map.mp (mergeItems_nodup_keys E X)
    exact (hle.and hne).imp (fun h => strLt_of_strLe_ne h.1 h.2)
  · intro k v _ hX
    have hlook : lookupKey ((mergeItems E X).map fun i => (i.key, i)) k = some v := by
      rw [lookup_map_pair_eq (mergedMap_wf E X) (mergedMap_nodup E X) (mergeItems_perm E X) k,
        lookupKey_mergedMap, hX]
      rfl
    have hndp : (keysOf ((mergeItems E X).map fun i => (i.key, i))).Nodup := by
      have hkeys : keysOf ((mergeItems E X).map fun i => (i.key, i))
          = (mergeItems E X).map ChartPoint.key := by
        simp [keysOf, List.map_map]
      rw [hkeys]
      exact mergeItems_nodup_keys E X
    constructor
    · obtain ⟨i, hi, hpair⟩ := List.mem_map.mp (mem_of_lookupKey hlook)
      have hiv : i = v := congrArg Prod.snd hpair
      exact hiv ▸ hi
    · intro i hi hik
      have hmem : (k, i) ∈ (mergeItems E X).map fun i => (i.key, i) :=
        List.mem_map.mpr ⟨i, hi, by rw [hik]⟩
      have hsome := lookupKey_of_mem hndp hmem
      rw [hlook] at hsome
      exact Option.some_injective _ hsome.symm

/-- Witness for claim C6 at a concrete input: an existing item and a new item
share the key 20260110-090100 and the merge keeps the new value. -/
theorem claim_C6_witness :
    (⟨7, "20260110", "090100"⟩ : ChartPoint) ∈
        mergeItems [⟨5, "20260110", "090100"⟩] [⟨7, "20260110", "090100"⟩]
    ∧ ∀ i ∈ mergeItems [⟨5, "20260110", "090100"⟩] [⟨7, "20260110", "090100"⟩],
        i.key = "20260110090100" → i = ⟨7, "20260110", "090100"⟩ :=
  (claim_C6 [⟨5, "20260110", "090100"⟩] [⟨7, "20260110", "090100"⟩]).2.2
    "20260110090100" ⟨7, "20260110", "090100"⟩
    ⟨⟨5, "20260110", "090100"⟩, by decide, by decide, by decide⟩ (by decide)

/-! ### Cache read path (`getCachedItems`, `getLastCachedDateHour`)

State passing: the localStorage store for one symbol is an
`Option ChartCacheData`; each operation returns its result together with the
store it leaves behind. -/

/-- Model of `ChartCacheManager.getCachedItems`: if the entry is older than
the cutoff `String(Number(today) - 5)` (a string comparison against the
decimal rendering of the numeric value of today minus five) the whole entry
is deleted and `[]` returned; otherwise the stored items are returned
unchanged. -/
def getCachedItems (store : Option ChartCacheData) (today : String) :
    List ChartCacheItem × Option ChartCacheData :=
  match store with
  | none => ([], none)
  | some data =>
    if strLt data.lastUpdated (natToString (strToNat today - 5)) then ([], none)
    else (data.items, some data)

/-- Minutes past midnight of an "HHMMSS" string:
`parseInt(h.slice(0,2)) * 60 + parseInt(h.slice(2,4))`. -/
def hourToMins (s : String) : Int :=
  (digitsToNat (s.data.take 2) : Int) * 60 + (digitsToNat ((s.data.drop 2).take 2) : Int)

/-- The inner loop of the gap check: two consecutive points of the regular
session more than 60 minutes apart. -/
def hasMiddleGap : List ChartCacheItem → Bool
  | a :: b :: rest => (60 < hourToMins b.hour - hourToMins a.hour) || hasMiddleGap (b :: rest)
  | _ => false

/-- The regular-session filter of `getLastCachedDateHour`:
items of today with `"090000" <= hour <= "153000"`. -/
def todaySessionItems (items : List ChartCacheItem) (today : String) : List ChartCacheItem :=
  items.filter fun i => decide (i.date = today) && strLe "090000" i.hour && strLe i.hour "153000"

/-- The gap predicate of `getLastCachedDateHour` over the already-read items:
either the session opens implausibly late (first cached point after 09:30
although the current time is past 09:30) or two consecutive session points
are more than 60 minutes apart.  False when no session items exist, matching
the `todayItems.length > 0` guard. -/
def gapDetected (items : List ChartCacheItem) (today nowHour : String) : Bool :=
  match todaySessionItems items today with
  | [] => false
  | first :: rest =>
    (strLt "093000" first.hour && strLt "093000" nowHour)
      || hasMiddleGap (first :: rest)

/-- Model of `ChartCacheManager.getLastCachedDateHour`.  Returns the resume
key (or none when nothing is cached) and the store it leaves behind; on the
first gap detection of a day it persists the `lastGapCleared` flag and
returns the forced re-backfill key (last non-today item, or today 09:00). -/
def getLastCachedDateHour (store : Option ChartCacheData) (today nowHour : String) :
    Option String × Option ChartCacheData :=
  let read := getCachedItems store today
  match read.1.getLast? with
  | none => (none, read.2)
  | some last =>
    let alreadyClearedToday : Bool :=
      match read.2 with
      | some d => decide (d.lastGapCleared = some today)
      | none => false
    if gapDetected read.1 today nowHour && !alreadyClearedToday then
      let store2 : Option ChartCacheData :=
        match read.2 with
        | some d => some { d with lastGapCleared := some today }
        | none => none
      match (read.1.filter fun i => !(decide (i.date = today))).getLast? with
      | some lastYesterday => (some (lastYesterday.date ++ lastYesterday.hour), store2)
      | none => (some (today ++ "090000"), store2)
    else
      (some (last.date ++ last.hour), read.2)

/-- The condition under which `getLastCachedDateHour` takes its forced
re-backfill branch. -/
def forcedRebackfill (store : Option ChartCacheData) (today nowHour : String) : Prop :=
  (getCachedItems store today).1 ≠ []
  ∧ gapDetected (getCachedItems store today).1 today nowHour = true
  ∧ (match (getCachedItems store today).2 with
     | some d => d.lastGapCleared ≠ some today
     | none => True)

/-! ### Calendar arithmetic (specification side, for claim C8)

The claim speaks of calendar days; the source compares date keys through
decimal arithmetic on the YYYYMMDD rendering.  These definitions give the
calendar meaning against which the source is compared. -/

/-- Gregorian leap year. -/
def isLeapYear (y : Nat) : Bool := (y % 4 == 0 && y % 100 != 0) || y % 400 == 0

/-- Days in a month of the Gregorian calendar. -/
def daysInMonth (y m : Nat) : Nat :=
  if m = 1 then 31 else if m = 2 then (if isLeapYear y then 29 else 28)
  else if m = 3 then 31 else if m = 4 then 30 else if m = 5 then 31
  else if m = 6 then 30 else if m = 7 then 31 else if m = 8 then 31
  else if m = 9 then 30 else if m = 10 then 31 else if m = 11 then 30 else 31

/-- Days in the year before the first of month `m`. -/
def daysBeforeMonth (y m : Nat) : Nat :=
  (List.range (m - 1)).foldl (fun acc i => acc + daysInMonth y (i + 1)) 0

/-- Absolute day index of a Gregorian date (0001-01-01 is day 0). -/
def dayNumber (y m d : Nat) : Nat :=
  365 * (y - 1) + (y - 1) / 4 - (y - 1) / 100 + (y - 1) / 400 + daysBeforeMonth y m + (d - 1)

/-- Absolute day index of a "YYYYMMDD" date key. -/
def dateKeyDayNumber (s : String) : Nat :=
  dayNumber (digitsToNat (s.data.take 4)) (digitsToNat ((s.data.drop 4).take 2))
    (digitsToNat ((s.data.drop 6).take 2))

theorem getCachedItems_kept {data : ChartCacheData} {today : String}
    (hc : strLt data.lastUpdated (natToString (strToNat today - 5)) = false) :
    getCachedItems (some data) today = (data.items, some data) := by
  simp [getCachedItems, hc]

/-- Claim C7: the gap-detection path of the resume-point read fires at most
once per symbol and day.  Whenever a read takes the forced re-backfill
branch, the store it leaves behind carries the `lastGapCleared` flag for
today, and every later read on the same day is never forced again and
returns the normal latest-cached key, leaving the store unchanged. -/
theorem claim_C7 (store : Option ChartCacheData) (today nowHour : String)
    (h : forcedRebackfill store today nowHour) :
    ∃ d : ChartCacheData,
      (getLastCachedDateHour store today nowHour).2 = some d
      ∧ d.lastGapCleared = some today
      ∧ ∀ nowHour2 : String,
          ¬ forcedRebackfill (some d) today nowHour2
          ∧ (∀ last, d.items.getLast? = some last →
              (getLastCachedDateHour (some d) today nowHour2).1
                = some (last.date ++ last.hour))
          ∧ (getLastCachedDateHour (some d) today nowHour2).2 = some d := by
  obtain ⟨hne, hgap, hflag⟩ := h
  cases store with
  | none => exact absurd rfl hne
  | some data =>
    cases hc : strLt data.lastUpdated (natToString (strToNat today - 5)) with
    | true =>
      rw [show getCachedItems (some data) today = ([], none) from by
        simp [getCachedItems, hc]] at hne
      exact absurd rfl hne
    | false =>
      have hread := getCachedItems_kept hc
      rw [hread] at hne hgap hflag
      have hflag' : data.lastGapCleared ≠ some today := hflag
      obtain ⟨last, hlast⟩ : ∃ last, data.items.getLast? = some last := by
        cases hl : data.items.getLast? with
        | none => exact absurd (List.getLast?_eq_none_iff.mp hl) hne
        | some l => exact ⟨l, rfl⟩
      refine ⟨{ data with lastGapCleared := some today }, ?_, rfl, ?_⟩
      · simp only [getLastCachedDateHour, hread, hlast, hgap,
          decide_eq_false hflag', Bool.and_true, Bool.not_false]
        cases (data.items.filter fun i => !(decide (i.date = today))).getLast? <;> rfl
      · intro nowHour2
        have hread2 : getCachedItems (some { data with lastGapCleared := some today }) today
            = (data.items, some { data with lastGapCleared := some today }) :=
          getCachedItems_kept hc
        have hcleared : (decide
            (({ data with lastGapCleared := some today } : ChartCacheData).lastGapCleared
              = some today)) = true := by simp
        refine ⟨?_, ?_, ?_⟩
        · intro hforced
          obtain ⟨_, _, hflag2⟩ := hforced
          rw [hread2] at hflag2
          exact hflag2 rfl
        · intro last2 hlast2
          simp [getLastCachedDateHour, hread2, hlast2, hcleared]
        · simp [getLastCachedDateHour, hread2, hlast, hcleared]

/-- Witness for claim C7 at a concrete input: a cache with a two-hour hole in
the regular session of 2026-01-10, read at 11:30, triggers the forced branch;
the theorem applies and yields the flag plus the at-most-once guarantee. -/
theorem claim_C7_witness :
    ∃ d : ChartCacheData,
      (getLastCachedDateHour
        (some { lastUpdated := "20260110",
                items := [⟨100, "20260109", "150000"⟩, ⟨101, "20260110", "090000"⟩,
                          ⟨102, "20260110", "110000"⟩],
                basePrice := none, lastGapCleared := none })
        "20260110" "113000").2 = some d
      ∧ d.lastGapCleared = some "20260110"
      ∧ ∀ nowHour2 : String,
          ¬ forcedRebackfill (some d) "20260110" nowHour2
          ∧ (∀ last, d.items.getLast? = some last →
              (getLastCachedDateHour (some d) "20260110" nowHour2).1
                = some (last.date ++ last.hour))
          ∧ (getLastCachedDateHour (some d) "20260110" nowHour2).2 = some d :=
  claim_C7
    (some { lastUpdated := "20260110",
            items := [⟨100, "20260109", "150000"⟩, ⟨101, "20260110", "090000"⟩,
                      ⟨102, "20260110", "110000"⟩],
            basePrice := none, lastGapCleared := none })
    "20260110" "113000"
    ⟨by decide, by decide, by
      show (none : Option String) ≠ some "20260110"
      decide⟩

/-! ### Decimal strings versus numbers (for claim C8) -/

theorem digitChar_spec {k : Nat} (hk : k < 10) :
    digitVal (digitChar k) = k ∧ isDigitChar (digitChar k) := by
  interval_cases k <;> exact ⟨by decide, by decide⟩

theorem foldl_digits (l : List Char) :
    ∀ a : Nat, l.foldl (fun n c => n * 10 + digitVal c) a = a * 10 ^ l.length + digitsToNat l := by
  induction l with
  | nil => intro a; simp [digitsToNat]
  | cons c t ih =>
    intro a
    have h1 : (c :: t).foldl (fun n c => n * 10 + digitVal c) a
        = t.foldl (fun n c => n * 10 + digitVal c) (a * 10 + digitVal c) := rfl
    have h2 : digitsToNat (c :: t) = digitVal c * 10 ^ t.length + digitsToNat t := by
      have : digitsToNat (c :: t)
          = t.foldl (fun n c => n * 10 + digitVal c) (0 * 10 + digitVal c) := rfl
      rw [this, ih (0 * 10 + digitVal c)]
      ring_nf
    rw [h1, ih (a * 10 + digitVal c), h2, List.length_cons]
    ring

theorem digitsToNat_cons (c : Char) (t : List Char) :
    digitsToNat (c :: t) = digitVal c * 10 ^ t.length + digitsToNat t := by
  have : digitsToNat (c :: t)
      = t.foldl (fun n c => n * 10 + digitVal c) (0 * 10 + digitVal c) := rfl
  rw [this, foldl_digits t (0 * 10 + digitVal c)]
  ring_nf

theorem digitsToNat_append_singleton (l : List Char) (c : Char) :
    digitsToNat (l ++ [c]) = digitsToNat l * 10 + digitVal c := by
  have : digitsToNat (l ++ [c])
      = [c].foldl (fun n c => n * 10 + digitVal c) (digitsToNat l) :=
    List.foldl_append _ _ _ _
  rw [this]
  rfl

theorem digitsToNat_lt {l : List Char} (h : ∀ c ∈ l, isDigitChar c) :
    digitsToNat l < 10 ^ l.length := by
  induction l with
  | nil => simp [digitsToNat]
  | cons c t ih =>
    have hdv : digitVal c ≤ 9 := by
      obtain ⟨hlo, hhi⟩ := h c (List.mem_cons_self _ _)
      unfold digitVal
      omega
    have ht := ih (fun x hx => h x (List.mem_cons_of_mem _ hx))
    rw [digitsToNat_cons, List.length_cons, pow_succ]
    calc digitVal c * 10 ^ t.length + digitsToNat t
        < digitVal c * 10 ^ t.length + 10 ^ t.length := by omega
      _ = (digitVal c + 1) * 10 ^ t.length := by ring
      _ ≤ 10 * 10 ^ t.length := Nat.mul_le_mul_right _ (by omega)
      _ = 10 ^ t.length * 10 := by ring

theorem charListLt_iff_digitsToNat_lt :
    ∀ {l1 l2 : List Char}, l1.length = l2.length →
      (∀ c ∈ l1, isDigitChar c) → (∀ c ∈ l2, isDigitChar c) →
      (charListLt l1 l2 = true ↔ digitsToNat l1 < digitsToNat l2)
  | [], [], _, _, _ => by simp [charListLt]
  | [], _ :: _, hlen, _, _ => by simp at hlen
  | _ :: _, [], hlen, _, _ => by simp at hlen
  | c1 :: t1, c2 :: t2, hlen, h1, h2 => by
    have hL : t1.length = t2.length := by simpa using hlen
    have hd1 : isDigitChar c1 := h1 c1 (List.mem_cons_self _ _)
    have hd2 : isDigitChar c2 := h2 c2 (List.mem_cons_self _ _)
    have ht1 := digitsToNat_lt (fun x hx => h1 x (List.mem_cons_of_mem _ hx))
    have ht2 := digitsToNat_lt (fun x hx => h2 x (List.mem_cons_of_mem _ hx))
    rw [digitsToNat_cons, digitsToNat_cons, hL]
    by_cases hc : c1.toNat < c2.toNat
    · have hdv : digitVal c1 < digitVal c2 := by
        obtain ⟨ha1, hb1⟩ := hd1
        obtain ⟨ha2, hb2⟩ := hd2
        unfold digitVal
        omega
      have : digitVal c1 * 10 ^ t2.length + digitsToNat t1
          < digitVal c2 * 10 ^ t2.length + digitsToNat t2 := by
        have hstep : (digitVal c1 + 1) * 10 ^ t2.length ≤ digitVal c2 * 10 ^ t2.length :=
          Nat.mul_le_mul_right _ hdv
        have hlt : digitsToNat t1 < 10 ^ t2.length := hL ▸ ht1
        calc digitVal c1 * 10 ^ t2.length + digitsToNat t1
            < digitVal c1 * 10 ^ t2.length + 10 ^ t2.length := Nat.add_lt_add_left hlt _
          _ = (digitVal c1 + 1) * 10 ^ t2.length := by ring
          _ ≤ digitVal c2 * 10 ^ t2.length := hstep
          _ ≤ digitVal c2 * 10 ^ t2.length + digitsToNat t2 := Nat.le_add_right _ _
      simp [charListLt, hc, this]
    · by_cases hc2 : c2.toNat < c1.toNat
      · have hdv : digitVal c2 < digitVal c1 := by
          obtain ⟨ha1, hb1⟩ := hd1
          obtain ⟨ha2, hb2⟩ := hd2
          unfold digitVal
          omega
        have hge : digitVal c2 * 10 ^ t2.length + digitsToNat t2
            < digitVal c1 * 10 ^ t2.length + digitsToNat t1 := by
          have hstep : (digitVal c2 + 1) * 10 ^ t2.length ≤ digitVal c1 * 10 ^ t2.length :=
            Nat.mul_le_mul_right _ hdv
          calc digitVal c2 * 10 ^ t2.length + digitsToNat t2
              < digitVal c2 * 10 ^ t2.length + 10 ^ t2.length := Nat.add_lt_add_left ht2 _
            _ = (digitVal c2 + 1) * 10 ^ t2.length := by ring
            _ ≤ digitVal c1 * 10 ^ t2.length := hstep
            _ ≤ digitVal c1 * 10 ^ t2.length + digitsToNat t1 := Nat.le_add_right _ _
        simp [charListLt, hc, hc2]
        omega
      · have he : c1 = c2 :=
          char_eq_of_toNat_eq (Nat.le_antisymm (Nat.le_of_not_lt hc2) (Nat.le_of_not_lt hc))
        subst he
        have := charListLt_iff_digitsToNat_lt hL
          (fun x hx => h1 x (List.mem_cons_of_mem _ hx))
          (fun x hx => h2 x (List.mem_cons_of_mem _ hx))
        simp [charListLt, this]

theorem natToStringAux_spec :
    ∀ f n : Nat, n < 10 ^ f →
      digitsToNat (natToStringAux f n) = n ∧ ∀ c ∈ natToStringAux f n, isDigitChar c
  | 0, n, h => by
    have : n = 0 := by simpa using h
    subst this
    exact ⟨rfl, by simp [natToStringAux]⟩
  | f + 1, n, h => by
    by_cases hn : n = 0
    · subst hn
      exact ⟨rfl, by simp [natToStringAux]⟩
    · have hdiv : n / 10 < 10 ^ f := by
        rw [Nat.div_lt_iff_lt_mul (by norm_num)]
        calc n < 10 ^ (f + 1) := h
          _ = 10 ^ f * 10 := by ring
      obtain ⟨ih1, ih2⟩ := natToStringAux_spec f (n / 10) hdiv
      have hmod : n % 10 < 10 := Nat.mod_lt _ (by norm_num)
      obtain ⟨hd1, hd2⟩ := digitChar_spec hmod
      constructor
      · rw [natToStringAux, if_neg hn, digitsToNat_append_singleton, ih1, hd1]
        omega
      · rw [natToStringAux, if_neg hn]
        intro c hc
        rcases List.mem_append.mp hc with hc | hc
        · exact ih2 c hc
        · have : c = digitChar (n % 10) := by simpa using hc
          exact this ▸ hd2

theorem natToStringAux_zero : ∀ f : Nat, natToStringAux f 0 = []
  | 0 => rfl
  | _ + 1 => by simp [natToStringAux]

theorem natToStringAux_length :
    ∀ (k f n : Nat), 10 ^ k ≤ n → n < 10 ^ (k + 1) → k + 1 ≤ f →
      (natToStringAux f n).length = k + 1
  | 0, f, n, hlo, hhi, hf => by
    obtain ⟨f', rfl⟩ : ∃ f', f = f' + 1 := ⟨f - 1, by omega⟩
    have hn : ¬ n = 0 := by
      intro e
      rw [e] at hlo
      simp at hlo
    have hdiv : n / 10 = 0 := Nat.div_eq_of_lt (by simpa using hhi)
    rw [natToStringAux, if_neg hn, hdiv, natToStringAux_zero]
    rfl
  | k + 1, f, n, hlo, hhi, hf => by
    obtain ⟨f', rfl⟩ : ∃ f', f = f' + 1 := ⟨f - 1, by omega⟩
    have hn : ¬ n = 0 := by
      intro e
      rw [e] at hlo
      have : 0 < 10 ^ (k + 1) := Nat.pos_pow_of_pos _ (by norm_num)
      omega
    have hdlo : 10 ^ k ≤ n / 10 := by
      rw [Nat.le_div_iff_mul_le (by norm_num)]
      calc 10 ^ k * 10 = 10 ^ (k + 1) := by ring
        _ ≤ n := hlo
    have hdhi : n / 10 < 10 ^ (k + 1) := by
      rw [Nat.div_lt_iff_lt_mul (by norm_num)]
      calc n < 10 ^ (k + 2) := hhi
        _ = 10 ^ (k + 1) * 10 := by ring
    rw [natToStringAux, if_neg hn, List.length_append,
      natToStringAux_length k f' (n / 10) hdlo hdhi (by omega)]
    rfl

theorem strLt_natToString_iff {s : String} {n : Nat} (hs8 : s.data.length = 8)
    (hsd : ∀ c ∈ s.data, isDigitChar c) (hlo : 10 ^ 7 ≤ n) (hhi : n < 10 ^ 8) :
    (strLt s (natToString n) = true ↔ strToNat s < n) := by
  have hn0 : ¬ n = 0 := by
    intro e
    rw [e] at hlo
    simp at hlo
  have hdata : (natToString n).data = natToStringAux 16 n := by
    rw [natToString, if_neg hn0]
  obtain ⟨hval, hdig⟩ := natToStringAux_spec 16 n (by calc n < 10 ^ 8 := hhi
    _ ≤ 10 ^ 16 := Nat.pow_le_pow_right (by norm_num) (by norm_num))
  have hlen : (natToStringAux 16 n).length = 8 :=
    natToStringAux_length 7 16 n hlo hhi (by norm_num)
  have hiff := @charListLt_iff_digitsToNat_lt s.data (natToStringAux 16 n)
    (by rw [hs8, hlen]) hsd hdig
  rw [hval] at hiff
  rw [strLt, hdata, strToNat]
  exact hiff

/-- Claim C8 counterexample: on 2026-01-03 an entry last updated on
2025-12-30 — four calendar days earlier, well within the last five calendar
days — is deleted on read and the empty list is returned instead of the
stored points.  The source compares the YYYYMMDD key against
`String(Number(today) - 5)`, and decimal arithmetic on date keys does not
follow the calendar across month or year boundaries. -/
theorem claim_C8_counterexample :
    dateKeyDayNumber "20260103" - dateKeyDayNumber "20251230" = 4
    ∧ getCachedItems
        (some { lastUpdated := "20251230",
                items := [⟨100, "20251230", "100000"⟩],
                basePrice := none, lastGapCleared := none })
        "20260103"
      = ([], none) :=
  ⟨by decide, by decide⟩

/-- Claim C8 (amended): a cached chart entry is dropped wholesale on the next
read exactly when the numeric value of its YYYYMMDD `lastUpdated` key is
smaller than the numeric value of today minus five, and otherwise the stored
points are returned unchanged.  Within one month this coincides with the
five-calendar-day rule; across month or year boundaries entries newer than
five calendar days can also be dropped. -/
theorem claim_C8_amended (data : ChartCacheData) (today : String)
    (h1 : today.data.length = 8) (h2 : ∀ c ∈ today.data, isDigitChar c)
    (h3 : data.lastUpdated.data.length = 8)
    (h4 : ∀ c ∈ data.lastUpdated.data, isDigitChar c)
    (h5 : 10000005 ≤ strToNat today) :
    getCachedItems (some data) today
      = if strToNat data.lastUpdated < strToNat today - 5 then ([], none)
        else (data.items, some data) := by
  have hhiT : strToNat today < 10 ^ 8 := by
    have hb := digitsToNat_lt h2
    rw [h1] at hb
    exact hb
  have hlo : 10 ^ 7 ≤ strToNat today - 5 := by
    norm_num at h5 ⊢
    omega
  have hhi : strToNat today - 5 < 10 ^ 8 := by omega
  have hiff := strLt_natToString_iff h3 h4 hlo hhi
  by_cases hlt : strToNat data.lastUpdated < strToNat today - 5
  · rw [if_pos hlt]
    simp [getCachedItems, hiff.mpr hlt]
  · rw [if_neg hlt]
    have hfalse : strLt data.lastUpdated (natToString (strToNat today - 5)) = false :=
      Bool.eq_false_iff.mpr (fun h => hlt (hiff.mp h))
    simp [getCachedItems, hfalse]

/-- Witness for claim C8 (amended) at a concrete input: on 2026-01-10 an
entry last updated 2026-01-01 is numerically more than five behind and is
dropped. -/
theorem claim_C8_witness :
    getCachedItems
      (some { lastUpdated := "20260101",
              items := [⟨100, "20260101", "100000"⟩],
              basePrice := none, lastGapCleared := none })
      "20260110"
    = ([], none) := by
  have h := claim_C8_amended
    { lastUpdated := "20260101",
      items := [⟨100, "20260101", "100000"⟩],
      basePrice := none, lastGapCleared := none }
    "20260110" (by decide) (by decide) (by decide) (by decide) (by decide)
  rw [if_pos (by decide)] at h
  exact h

/-! ### Downsampling (src/lib/chartUtils.ts) -/

/-- `String(n).padStart(2, "0")`. -/
def pad2 (n : Nat) : String := if n < 10 then "0" ++ natToString n else natToString n

/-- The "HHMM00" string the forward filler synthesizes for minute `m`. -/
def minsToHourStr (m : Nat) : String := pad2 (m / 60) ++ pad2 (m % 60) ++ "00"

/-- The synthetic flat-price points `forwardFillMinuteData` pushes between two
consecutive points of the same date whose gap is more than one and at most
sixty minutes. -/
def ffGap (prev cur : ChartPoint) : List ChartPoint :=
  if prev.date = cur.date then
    if 1 < hourToMins cur.hour - hourToMins prev.hour
        ∧ hourToMins cur.hour - hourToMins prev.hour ≤ 60 then
      (List.range' ((hourToMins prev.hour).toNat + 1)
          (hourToMins cur.hour - hourToMins prev.hour - 1).toNat).map
        fun m => { price := prev.price, date := prev.date, hour := minsToHourStr m }
    else []
  else []

/-- The loop of `forwardFillMinuteData` from the second element on: `prev` is
always the previous input point (the last pushed element before the current
iteration). -/
def ffAux (prev : ChartPoint) : List ChartPoint → List ChartPoint
  | [] => []
  | cur :: rest => ffGap prev cur ++ cur :: ffAux cur rest

/-- Model of `forwardFillMinuteData`; lists shorter than two are returned
unchanged. -/
def forwardFillMinuteData (l : List ChartPoint) : List ChartPoint :=
  match l with
  | [] => []
  | [x] => [x]
  | x :: rest => x :: ffAux x rest

/-- The 10-minute bucket key `item.date + item.hour.substring(0, 3)`
(source name: the group key of `resampleTo10Minutes`). -/
def bucketKey (p : ChartPoint) : String := p.date ++ String.mk (p.hour.data.take 3)

/-- The loop of `resampleTo10Minutes` after the first element fixed the
current bucket: keep the last point of each bucket, emit it when the bucket
changes, and emit the final tracked point at the end. -/
def resampleAux (curKey : String) (lastPoint : ChartPoint) :
    List ChartPoint → List ChartPoint
  | [] => [lastPoint]
  | item :: rest =>
    if bucketKey item = curKey then resampleAux curKey item rest
    else lastPoint :: resampleAux (bucketKey item) item rest

/-- Model of `resampleTo10Minutes`: forward-fill the minute data, then keep
the chronologically last point of every 10-minute bucket.  The source seeds
the loop with an empty bucket key that matches no real point, which is
exactly the first-element initialization here. -/
def resampleTo10Minutes (minuteData : List ChartPoint) : List ChartPoint :=
  match minuteData with
  | [] => []
  | _ :: _ =>
    match forwardFillMinuteData minuteData with
    | [] => []
    | x :: rest => resampleAux (bucketKey x) x rest

/-- Claim C9 counterexample: on the 0,1,2,11,12 minute-offset scenario the
first output point is not the offset-2 input point: forward filling
synthesizes flat points through minute 10, so the first bucket ends with the
synthetic 09:09 point (offset-2 price, different time). -/
theorem claim_C9_counterexample :
    resampleTo10Minutes
      [⟨1, "20260110", "090000"⟩, ⟨2, "20260110", "090100"⟩, ⟨3, "20260110", "090200"⟩,
       ⟨4, "20260110", "091100"⟩, ⟨5, "20260110", "091200"⟩]
    ≠ [⟨3, "20260110", "090200"⟩, ⟨5, "20260110", "091200"⟩] := by decide

set_option maxRecDepth 16384 in
set_option maxHeartbeats 1600000 in
/-- Claim C9 (amended): the 0,1,2,11,12 minute-offset scenario yields exactly
two output points; the second is the offset-12 input point itself, and the
first carries the offset-2 price but is the forward-filled synthetic point at
offset 9 (the last minute of the first bucket), not the offset-2 input
point. -/
theorem claim_C9_amended (p0 p1 p2 p3 p4 : Rat) :
    resampleTo10Minutes
      [⟨p0, "20260110", "090000"⟩, ⟨p1, "20260110", "090100"⟩, ⟨p2, "20260110", "090200"⟩,
       ⟨p3, "20260110", "091100"⟩, ⟨p4, "20260110", "091200"⟩]
    = [⟨p2, "20260110", "090900"⟩, ⟨p4, "20260110", "091200"⟩] := by
  simp only [resampleTo10Minutes, forwardFillMinuteData, ffAux, ffGap, hourToMins,
    minsToHourStr, pad2, natToString, natToStringAux, bucketKey, resampleAux,
    digitsToNat, digitVal, digitChar]
  norm_num
  rfl

/-! ### Token single-flight (src/lib/kisApi.ts, getKisAccessToken)

JavaScript is single-threaded: each call to `getKisAccessToken` runs its
synchronous prefix — the `tokenPromise` check, the cached-token check, and,
on a miss, the installation of a fresh promise whose body synchronously
enqueues one issuance request on the rate limiter — atomically, before any
other call starts.  A concurrent burst is a list of such call starts executed
before any issuance response resolves; `tokenPromise` is only cleared by the
`finally` handler when a response arrives, so it stays non-null throughout
the burst. -/

/-- The stored credential (`KisAuth` in storage.ts). -/
structure KisAuth where
  accessToken : String
  tokenTime : Nat
deriving DecidableEq, Repr

/-- What one call start hands back to its caller. -/
inductive TokenCallResult where
  | cachedToken (token : String)
  | sharedPromise (handle : Nat)
  | installedPromise (handle : Nat)
deriving DecidableEq, Repr

/-- Module state of kisApi.ts as `getKisAccessToken` sees it: the
`tokenPromise` lock (identified by a handle), the persisted credential, the
number of issuance requests handed to the rate limiter so far, and a supply
of fresh handles. -/
structure TokenState where
  tokenPromise : Option Nat
  auth : Option KisAuth
  issuanceRequests : Nat
  nextHandle : Nat
deriving DecidableEq, Repr

/-- The credential validity window: 12 hours in milliseconds. -/
def tokenValidityMs : Nat := 12 * 60 * 60 * 1000

/-- Synchronous prefix of `getKisAccessToken`: join a pending issuance if one
exists, else serve a cached credential younger than 12 hours (unless
`forceRefresh`), else install the shared promise and enqueue exactly one
issuance request. -/
def getKisAccessTokenStart (s : TokenState) (now : Nat) (forceRefresh : Bool) :
    TokenCallResult × TokenState :=
  match s.tokenPromise with
  | some h => (.sharedPromise h, s)
  | none =>
    let install : TokenCallResult × TokenState :=
      (.installedPromise s.nextHandle,
       { s with
           tokenPromise := some s.nextHandle
           issuanceRequests := s.issuanceRequests + 1
           nextHandle := s.nextHandle + 1 })
    match s.auth with
    | some auth =>
      if forceRefresh = false ∧ now - auth.tokenTime < tokenValidityMs then
        (.cachedToken auth.accessToken, s)
      else install
    | none => install

/-- A burst of call starts, run left to right on the module state. -/
def runTokenCalls (s : TokenState) (calls : List (Nat × Bool)) :
    List TokenCallResult × TokenState :=
  match calls with
  | [] => ([], s)
  | (now, force) :: rest =>
    let r := getKisAccessTokenStart s now force
    let rr := runTokenCalls r.2 rest
    (r.1 :: rr.1, rr.2)

/-- The first call misses the cache: forced refresh, no stored credential, or
a stored credential at least 12 hours old. -/
def missesCache (s : TokenState) (now : Nat) (force : Bool) : Prop :=
  match s.auth with
  | some auth => force = true ∨ tokenValidityMs ≤ now - auth.tokenTime
  | none => True

theorem runTokenCalls_pending (h₀ : Nat) :
    ∀ (calls : List (Nat × Bool)) (s : TokenState), s.tokenPromise = some h₀ →
      runTokenCalls s calls = (calls.map (fun _ => .sharedPromise h₀), s)
  | [], s, _ => rfl
  | (now, force) :: rest, s, hp => by
    have hstep : getKisAccessTokenStart s now force = (.sharedPromise h₀, s) := by
      unfold getKisAccessTokenStart
      rw [hp]
    simp only [runTokenCalls, hstep, runTokenCalls_pending h₀ rest s hp, List.map_cons]

/-- Claim C1: if N ≥ 1 calls to `getKisAccessToken` start before any
issuance response returns, and the first misses the cache, then exactly one
issuance request is enqueued; the first caller installs the shared pending
promise and every other caller receives that same promise.  The function
keys nothing on the trading mode, so this holds for every mode. -/
theorem claim_C1 (s : TokenState) (calls : List (Nat × Bool)) (now : Nat) (force : Bool)
    (hpend : s.tokenPromise = none) (hmiss : missesCache s now force) :
    (runTokenCalls s ((now, force) :: calls)).2.issuanceRequests = s.issuanceRequests + 1
    ∧ (runTokenCalls s ((now, force) :: calls)).1
      = .installedPromise s.nextHandle ::
          calls.map (fun _ => .sharedPromise s.nextHandle) := by
  have hfirst : getKisAccessTokenStart s now force
      = (.installedPromise s.nextHandle,
         { s with
             tokenPromise := some s.nextHandle
             issuanceRequests := s.issuanceRequests + 1
             nextHandle := s.nextHandle + 1 }) := by
    unfold getKisAccessTokenStart
    rw [hpend]
    unfold missesCache at hmiss
    cases hauth : s.auth with
    | none => rfl
    | some auth =>
      rw [hauth] at hmiss
      have hcond : ¬ (force = false ∧ now - auth.tokenTime < tokenValidityMs) := by
        rcases hmiss with h | h
        · intro hc
          rw [h] at hc
          cases hc.1
        · intro hc
          exact absurd hc.2 (Nat.not_lt.mpr h)
      simp only [if_neg hcond]
  have hrest := runTokenCalls_pending s.nextHandle calls
    { s with
        tokenPromise := some s.nextHandle
        issuanceRequests := s.issuanceRequests + 1
        nextHandle := s.nextHandle + 1 } rfl
  simp only [runTokenCalls, hfirst, hrest]
  constructor <;> trivial

/-- Witness for claim C1: three concurrent calls on an empty cache enqueue
one issuance; the second and third share the first call's promise. -/
theorem claim_C1_witness :
    (runTokenCalls ⟨none, none, 0, 0⟩ [(0, false), (5, false), (6, true)]).2.issuanceRequests
      = 0 + 1
    ∧ (runTokenCalls ⟨none, none, 0, 0⟩ [(0, false), (5, false), (6, true)]).1
      = .installedPromise 0 ::
          [(5, false), (6, true)].map (fun _ => TokenCallResult.sharedPromise 0) :=
  claim_C1 ⟨none, none, 0, 0⟩ [(5, false), (6, true)] 0 false rfl trivial

/-! ### Streaming tick parsing (src/lib/kisApi.ts, parseTickerData)

The numeric core of `parseTickerData` over the already-split caret fields:
`parsedPrice` and `diffAmtRaw` stand for the `parseFloat` results of the
price field and the change-amount field (`none` models `NaN`), `diffSign`
is the direction-sign field.  JavaScript numbers appear only through
ordering and addition, modelled by rationals. -/

/-- The fields of the returned `KisTickerData` that the claims concern. -/
structure ParsedTickFields where
  currentPrice : Option Rat
  basePrice : Option Rat
  isUp : Bool
  isDown : Bool
deriving DecidableEq, Repr

/-- Model of the tail of `parseTickerData` (the lines computing `diffAmt`,
`basePrice` and the returned record).  `diffAmt` is `parseFloat(...) || 0`;
the base price starts from the numeric current price (0 when the price is
not numeric), is shifted by the change amount according to the sign only
when positive, and is returned only when the result is positive. -/
def parseTickerData (parsedPrice diffAmtRaw : Option Rat) (diffSign : String) :
    ParsedTickFields :=
  let diffAmt : Rat := match diffAmtRaw with
    | some v => v
    | none => 0
  let base0 : Rat := match parsedPrice with
    | some p => p
    | none => 0
  let base1 : Rat :=
    if 0 < base0 then
      if diffSign = "1" ∨ diffSign = "2" then base0 - diffAmt
      else if diffSign = "4" ∨ diffSign = "5" then base0 + diffAmt
      else base0
    else base0
  { currentPrice := parsedPrice
    basePrice := if 0 < base1 then some base1 else none
    isUp := diffSign = "1" ∨ diffSign = "2"
    isDown := diffSign = "4" ∨ diffSign = "5" }

/-- The previous settlement price the claim speaks of: the current price
adjusted by the change amount according to the direction sign. -/
def reconstructedPrevClose (price diffAmt : Rat) (diffSign : String) : Rat :=
  if diffSign = "1" ∨ diffSign = "2" then price - diffAmt
  else if diffSign = "4" ∨ diffSign = "5" then price + diffAmt
  else price

/-- Claim C10: a returned `basePrice` is always strictly positive, and the
field is absent whenever the reconstructed previous settlement price is not
strictly positive. -/
theorem claim_C10 (parsedPrice diffAmtRaw : Option Rat) (diffSign : String) :
    (∀ b, (parseTickerData parsedPrice diffAmtRaw diffSign).basePrice = some b → 0 < b)
    ∧ (∀ p, parsedPrice = some p →
        reconstructedPrevClose p (diffAmtRaw.getD 0) diffSign ≤ 0 →
        (parseTickerData parsedPrice diffAmtRaw diffSign).basePrice = none) := by
  have hdiff : (match diffAmtRaw with | some v => v | none => (0 : Rat))
      = diffAmtRaw.getD 0 := by
    cases diffAmtRaw <;> rfl
  have haux : ∀ x b : Rat, (if 0 < x then some x else none) = some b → 0 < b := by
    intro x b h
    by_cases hx : 0 < x
    · rw [if_pos hx] at h
      exact (Option.some_injective _ h) ▸ hx
    · rw [if_neg hx] at h
      cases h
  constructor
  · intro b hb
    simp only [parseTickerData] at hb
    exact haux _ b hb
  · intro p hp hrec
    subst hp
    simp only [parseTickerData, hdiff]
    rw [if_neg]
    apply not_lt.mpr
    by_cases hp0 : (0 : Rat) < p
    · rw [if_pos hp0]
      unfold reconstructedPrevClose at hrec
      exact hrec
    · rw [if_neg hp0]
      exact not_lt.mp hp0

/-- Witness for claim C10: a positive returned base price on an up tick, and
an absent base price when the reconstruction is non-positive. -/
theorem claim_C10_witness :
    0 < (95 : Rat)
    ∧ (parseTickerData (some 3) (some 10) "2").basePrice = none := by
  constructor
  · refine (claim_C10 (some 100) (some 5) "2").1 95 ?_
    simp only [parseTickerData]
    norm_num
  · refine (claim_C10 (some 3) (some 10) "2").2 3 rfl ?_
    norm_num [reconstructedPrevClose]

/-! ### Rate-limited request queue (kisRateLimiter.ts)

Timed semantics of `KisRateLimiter.processQueue` distilled from the event
loop: a task is a pair (arrival time, execution duration), listed in enqueue
order with nondecreasing arrivals.  A task that arrives while the runner is
idle starts at its arrival time (`enqueue` calls `processQueue`
synchronously); after a task finishing at time f, the runner sleeps
`minIntervalMs` and starts the next task at f + minIntervalMs only if the
queue is non-empty at f — otherwise it exits (`isRunning = false`) and the
next arrival starts immediately at its own arrival time. -/

/-- Start times of the tasks.  The `Option Nat` state is the finish time of
the previous task, `none` before the first task. -/
def limiterStartsAux (m : Nat) : Option Nat → List (Nat × Nat) → List Nat
  | _, [] => []
  | none, (a, d) :: rest => a :: limiterStartsAux m (some (a + d)) rest
  | some f, (a, d) :: rest =>
    (if a ≤ f then f + m else a) :: limiterStartsAux m (some ((if a ≤ f then f + m else a) + d)) rest

/-- Start times of a task list processed by a limiter with interval `m`,
beginning idle. -/
def limiterStarts (m : Nat) (tasks : List (Nat × Nat)) : List Nat :=
  limiterStartsAux m none tasks

/-- The queue never becomes empty between consecutive tasks: every task after
the first is already enqueued when its predecessor finishes. -/
def queueNeverEmpties (m : Nat) : Option Nat → List (Nat × Nat) → Bool
  | _, [] => true
  | none, (a, d) :: rest => queueNeverEmpties m (some (a + d)) rest
  | some f, (a, d) :: rest => decide (a ≤ f) && queueNeverEmpties m (some (f + m + d)) rest

/-- Claim C2 counterexample: with minIntervalMs = 600, a task running over
[0, 100] and a second task enqueued at 200 — after the queue drained — start
600 · 0 and 200: the gap between consecutive dequeued task starts is 200,
less than the configured minimum interval. -/
theorem claim_C2_counterexample :
    limiterStarts 600 [(0, 100), (200, 50)] = [0, 200]
    ∧ 200 - 0 < 600 :=
  ⟨rfl, by decide⟩

theorem limiterStartsAux_chain (m : Nat) :
    ∀ (tasks : List (Nat × Nat)) (f : Nat),
      queueNeverEmpties m (some f) tasks = true →
      List.Chain' (fun s t => s + m ≤ t) (limiterStartsAux m (some f) tasks)
      ∧ ∀ s ∈ (limiterStartsAux m (some f) tasks).head?, f + m ≤ s
  | [], _, _ => ⟨List.chain'_nil, by simp [limiterStartsAux]⟩
  | (a, d) :: rest, f, h => by
    obtain ⟨ha, hrest⟩ : a ≤ f ∧ queueNeverEmpties m (some (f + m + d)) rest = true := by
      simpa [queueNeverEmpties] using h
    obtain ⟨ihchain, ihhead⟩ := limiterStartsAux_chain m rest (f + m + d) hrest
    have hstart : limiterStartsAux m (some f) ((a, d) :: rest)
        = (f + m) :: limiterStartsAux m (some (f + m + d)) rest := by
      simp [limiterStartsAux, ha]
    rw [hstart]
    constructor
    · rw [List.chain'_cons']
      refine ⟨?_, ihchain⟩
      intro s hs
      have := ihhead s hs
      omega
    · intro s hs
      simp only [List.head?_cons, Option.mem_def, Option.some.injEq] at hs
      omega

/-- Claim C2 (amended): as long as the queue never empties between
consecutive tasks — each next task is already enqueued when the previous one
completes — the start times of consecutively dequeued tasks are at least
minIntervalMs apart.  When the queue drains, the next task starts at its own
arrival time with no pacing delay, as the counterexample shows. -/
theorem claim_C2_amended (m : Nat) (tasks : List (Nat × Nat))
    (h : queueNeverEmpties m none tasks = true) :
    List.Chain' (fun s t => s + m ≤ t) (limiterStarts m tasks) := by
  cases tasks with
  | nil => exact List.chain'_nil
  | cons hd rest =>
    obtain ⟨a, d⟩ := hd
    have hrest : queueNeverEmpties m (some (a + d)) rest = true := by
      simpa [queueNeverEmpties] using h
    obtain ⟨ihchain, ihhead⟩ := limiterStartsAux_chain m rest (a + d) hrest
    have : limiterStarts m ((a, d) :: rest)
        = a :: limiterStartsAux m (some (a + d)) rest := rfl
    rw [this, List.chain'_cons']
    refine ⟨?_, ihchain⟩
    intro s hs
    have := ihhead s hs
    omega

/-- Witness for claim C2 (amended): three tasks that are all enqueued before
the previous one finishes are paced at least 600 apart (starts 0, 700,
1330). -/
theorem claim_C2_witness :
    List.Chain' (fun s t => s + 600 ≤ t) (limiterStarts 600 [(0, 100), (50, 30), (60, 20)]) :=
  claim_C2_amended 600 [(0, 100), (50, 30), (60, 20)] (by decide)

/-! ### Failover fallback timers (WsManager.syncSubscriptions)

Per-symbol slice of the 1-second reconciliation tick.  The fallback timer map
holds at most one timer per symbol (a JS Map keyed by the symbol), modelled
as an `Option` carrying a timer identity so that keeping an existing timer
and starting a new one are distinguishable.  Whether the installed timer
polls the brokerage REST endpoint or the secondary provider depends on
`kisEnabled` and the keys, but either way exactly one entry is stored. -/

/-- The configuration fields the fallback decision reads. -/
structure FallbackConfig where
  yahooEnabled : Bool
  kisEnabled : Bool
deriving DecidableEq, Repr

/-- The criterion of syncSubscriptions:
`config.apis.yahoo.enabled && (timeSinceLastUpdate > 30 * 1000 || !config.kisEnabled)`. -/
def shouldTryFallback (cfg : FallbackConfig) (now lastUpdate : Nat) : Bool :=
  cfg.yahooEnabled && (decide (30 * 1000 < now - lastUpdate) || !cfg.kisEnabled)

/-- One tick of the per-symbol fallback-timer management: start a timer when
the criterion holds and none is running, keep a running one, clear it when
the criterion fails. -/
def fallbackTimerTick (cfg : FallbackConfig) (now lastUpdate : Nat)
    (timer : Option Nat) (freshId : Nat) : Option Nat :=
  if shouldTryFallback cfg now lastUpdate then
    match timer with
    | some t => some t
    | none => some freshId
  else none

/-- Claim C3: after a reconciliation tick a fallback timer runs precisely
when the secondary provider is enabled and the symbol is stale (last update
more than 30 s old) or the brokerage integration is disabled; a tick starts
exactly one timer when none is running and never replaces a running one; and
one tick after a fresh primary update (with the brokerage enabled) the timer
is gone. -/
theorem claim_C3 (cfg : FallbackConfig) (now lastUpdate : Nat)
    (timer : Option Nat) (freshId : Nat) :
    ((fallbackTimerTick cfg now lastUpdate timer freshId).isSome
        ↔ (cfg.yahooEnabled = true
            ∧ (30 * 1000 < now - lastUpdate ∨ cfg.kisEnabled = false)))
    ∧ (timer = none → shouldTryFallback cfg now lastUpdate = true →
        fallbackTimerTick cfg now lastUpdate timer freshId = some freshId)
    ∧ (∀ t, timer = some t → shouldTryFallback cfg now lastUpdate = true →
        fallbackTimerTick cfg now lastUpdate timer freshId = some t)
    ∧ (cfg.kisEnabled = true → now - lastUpdate ≤ 30 * 1000 →
        fallbackTimerTick cfg now lastUpdate timer freshId = none) := by
  refine ⟨?_, ?_, ?_, ?_⟩
  · unfold fallbackTimerTick shouldTryFallback
    by_cases hy : cfg.yahooEnabled <;>
      by_cases hs : 30 * 1000 < now - lastUpdate <;>
        by_cases hk : cfg.kisEnabled <;>
          cases timer <;>
            simp [hy, hs, hk]
  · intro ht hc
    unfold fallbackTimerTick
    rw [hc, ht]
    rfl
  · intro t ht hc
    unfold fallbackTimerTick
    rw [hc, ht]
    rfl
  · intro hk hfresh
    unfold fallbackTimerTick shouldTryFallback
    rw [hk]
    simp [Nat.not_lt.mpr hfresh]

/-- Witness for claim C3: with the secondary provider enabled and a 31-second
stale symbol, a tick with no running timer starts exactly one; a tick after a
fresh update clears it. -/
theorem claim_C3_witness :
    fallbackTimerTick ⟨true, true⟩ 31000 0 none 7 = some 7
    ∧ fallbackTimerTick ⟨true, true⟩ 31000 2000 (some 7) 8 = none := by
  constructor
  · exact (claim_C3 ⟨true, true⟩ 31000 0 none 7).2.1 rfl (by decide)
  · exact (claim_C3 ⟨true, true⟩ 31000 2000 (some 7) 8).2.2.2 rfl (by decide)

/-! ### Streaming connection lifecycle (WsManager.connectWs)

State slice of the refs the handlers touch: the socket (`wsRef`), the
connecting flag, the locally tracked subscribed-symbol set and the approval
key.  The WebSocket `onerror` handler only resets the connecting flag; the
transition out of CONNECTED happens in `onclose`, which always follows a
transport error. -/

structure WsState where
  wsOpen : Bool
  isConnecting : Bool
  subscribed : List String
  approvalKey : Option String
deriving DecidableEq, Repr

/-- The `socket.onclose` handler. -/
def onClose (s : WsState) : WsState :=
  { s with wsOpen := false, isConnecting := false, subscribed := [] }

/-- The `socket.onerror` handler. -/
def onError (s : WsState) : WsState := { s with isConnecting := false }

/-- The `catch` branch of `connectWs`: a failed connection attempt discards
the approval key. -/
def connectWsFailed (s : WsState) : WsState :=
  { s with isConnecting := false, approvalKey := none }

/-- The config-signature-change branch of `syncSubscriptions`, which also
discards the approval key. -/
def configChangeReset (s : WsState) : WsState := { s with approvalKey := none }

/-- The approval-key step of `connectWs`: issue a fresh key only when none is
stored, otherwise reuse the stored one.  Returns the key used for the next
handshake together with the state. -/
def connectWsApprovalKey (s : WsState) (freshKey : String) : String × WsState :=
  match s.approvalKey with
  | some k => (k, s)
  | none => (freshKey, { s with approvalKey := some freshKey })

/-- Claim C4 counterexample: after a transport close of a connected state the
subscribed set is cleared, but the approval key survives and the very next
connect handshake uses the old key, not a fresh one — refuting the claimed
forced re-issuance. -/
theorem claim_C4_counterexample :
    (onClose ⟨true, false, ["005930"], some "OLDKEY"⟩).subscribed = []
    ∧ (onClose ⟨true, false, ["005930"], some "OLDKEY"⟩).approvalKey = some "OLDKEY"
    ∧ (connectWsApprovalKey (onClose ⟨true, false, ["005930"], some "OLDKEY"⟩) "NEWKEY").1
        = "OLDKEY"
    ∧ "OLDKEY" ≠ "NEWKEY" :=
  ⟨rfl, rfl, rfl, by decide⟩

/-- Claim C4 (amended): on leaving CONNECTED via close the locally tracked
subscribed-symbol set is cleared, but the approval key is retained and reused
unchanged for the next handshake; the key is discarded — forcing re-issuance
— only by a failed connect attempt or a config-signature change, not by a
normal transport close. -/
theorem claim_C4_amended (s : WsState) :
    (onClose s).subscribed = []
    ∧ (onClose s).wsOpen = false
    ∧ (onClose s).approvalKey = s.approvalKey
    ∧ (∀ k freshKey, s.approvalKey = some k →
        connectWsApprovalKey (onClose s) freshKey = (k, onClose s))
    ∧ (connectWsFailed s).approvalKey = none
    ∧ (configChangeReset s).approvalKey = none := by
  refine ⟨rfl, rfl, rfl, ?_, rfl, rfl⟩
  intro k freshKey hk
  unfold connectWsApprovalKey onClose
  rw [hk]

/-- Witness for claim C4 (amended) at a concrete connected state with a
stored key. -/
theorem claim_C4_witness :
    connectWsApprovalKey (onClose ⟨true, false, ["122630"], some "KEY1"⟩) "KEY2"
      = ("KEY1", onClose ⟨true, false, ["122630"], some "KEY1"⟩) :=
  (claim_C4_amended ⟨true, false, ["122630"], some "KEY1"⟩).2.2.2.1 "KEY1" "KEY2" rfl

end MyStockOverlay
